import Mathlib

/-!
# Verification of the TeaSafe/BFS block-storage core

A shallow embedding of the block-level machinery of the TeaSafe/BFS
encrypted container: the little-endian header serialisation helpers, the
`FileBlock` view over a single on-disk block (`FileBlock.hpp`), the ciphered
`ContainerImageStream` (`ContainerImageStream.cpp`), the pass-through
`NullByteTransformer` (`NullByteTransformer.cpp`), and a file-entry model of
the chain-of-blocks file abstraction (modelled from the specification, since
the `FileEntry`/`TeaSafeFile` implementation file is not part of the sources;
only its header and its tests are).

Machine integers are modelled as `Nat` with explicit `% 2 ^ w` where the code
relies on fixed-width arithmetic.  The backing image is a byte store
`Disk := Nat → Nat`.
-/

namespace bfs

/-- The backing image file: a byte at every offset. -/
def Disk : Type := Nat → Nat

/-- Write the byte list `bs` into the disk starting at offset `off`. -/
def writeBytes (d : Disk) (off : Nat) (bs : List Nat) : Disk :=
  fun a => if off ≤ a ∧ a < off + bs.length then bs.getD (a - off) 0 else d a

/-- Read `n` bytes from the disk starting at offset `off`. -/
def readBytes (d : Disk) (off : Nat) (n : Nat) : List Nat :=
  (List.range n).map (fun i => d (off + i))

/-! ## Little-endian serialisation helpers

Modelled from the spec: the `detail` conversion helpers
(`convertInt32ToInt4Array`, `convertInt4ArrayToInt32`,
`convertUInt64ToInt8Array`, `convertInt8ArrayToInt64`) live in
`DetailBFS.hpp`, which is not among the sources; the spec fixes the header
fields to be unsigned little-endian (32-bit `bytesWritten`, 64-bit `next`). -/

/-- Serialisation of `v` as `w` little-endian bytes. -/
def toLE : Nat → Nat → List Nat
  | 0, _ => []
  | w + 1, v => v % 256 :: toLE w (v / 256)

/-- Little-endian deserialisation of a byte list. -/
def fromLE : List Nat → Nat
  | [] => 0
  | b :: bs => b + 256 * fromLE bs

/-- Modelled from the spec: `detail::convertInt32ToInt4Array`
(`DetailBFS.hpp` is not among the sources), 32-bit little-endian. -/
def convertInt32ToInt4Array (v : Nat) : List Nat := toLE 4 v

/-- Modelled from the spec: `detail::convertInt4ArrayToInt32`. -/
def convertInt4ArrayToInt32 (bs : List Nat) : Nat := fromLE bs

/-- Modelled from the spec: `detail::convertUInt64ToInt8Array`
(`DetailBFS.hpp` is not among the sources), 64-bit little-endian. -/
def convertUInt64ToInt8Array (v : Nat) : List Nat := toLE 8 v

/-- Modelled from the spec: `detail::convertInt8ArrayToInt64`. -/
def convertInt8ArrayToInt64 (bs : List Nat) : Nat := fromLE bs

/-! ## The `FileBlock` view (`FileBlock.hpp`)

The `detail` layout constants and functions used by `FileBlock.hpp` come
from `DetailBFS.hpp` / `DetailFileBlock.hpp`, which are not among the
sources; they are modelled from the spec: block size `B = 512` (the spec's
concrete scenario value), header `4 + 8 = 12` bytes, image header
`HDR = 48 + ceil(N/8)` rounded up to `B`, volume bitmap at image offset 48
with one bit per block. -/

/-- Modelled from the spec: `detail::FILE_BLOCK_SIZE` (`B = 512`). -/
def FILE_BLOCK_SIZE : Nat := 512

/-- Modelled from the spec: `detail::FILE_BLOCK_META` (4-byte `bytesWritten`
plus 8-byte `next`). -/
def FILE_BLOCK_META : Nat := 12

/-- Modelled from the spec: the image header size `HDR`, i.e.
`48 + ceil(N/8)` rounded up to the block size. -/
def hdrSize (totalBlocks : Nat) : Nat :=
  ((48 + (totalBlocks + 7) / 8 + (FILE_BLOCK_SIZE - 1)) / FILE_BLOCK_SIZE) *
    FILE_BLOCK_SIZE

/-- Modelled from the spec: `detail::getOffsetOfFileBlock`: block `i` lives
at image byte range starting at `HDR + i * B`. -/
def getOffsetOfFileBlock (index totalBlocks : Nat) : Nat :=
  hdrSize totalBlocks + index * FILE_BLOCK_SIZE

/-- Modelled from the spec: the image offset of the bitmap byte holding the
bit of block `index` (bitmap at offset 48, one bit per block, byte-granular
read-modify-write). -/
def bitmapByteOffset (index : Nat) : Nat := 48 + index / 8

/-- Modelled from the spec: `detail::updateVolumeBitmapWithOne`: set the
bit of block `index` in the byte that holds it. -/
def updateVolumeBitmapWithOne (d : Disk) (index : Nat) (totalBlocks : Nat) :
    Disk :=
  writeBytes d (bitmapByteOffset index)
    [d (bitmapByteOffset index) ||| (1 <<< (index % 8))]

/-- Modelled from the spec: `detail::isBlockInUse`: test the bit of block
`index` in the volume bitmap. -/
def isBlockInUse (index totalBlocks : Nat) (d : Disk) : Bool :=
  (d (bitmapByteOffset index)).testBit (index % 8)

/-- In-memory state of a `FileBlock` (`FileBlock.hpp`): the member fields
`m_totalBlocks`, `m_index`, `m_bytesWritten` (`uint32_t`),
`m_initialBytesWritten` (`uint32_t`), `m_next` (`uint64_t`), `m_offset`,
`m_extraOffset`.  The image path is not modelled (the disk is passed
explicitly). -/
structure FileBlock where
  totalBlocks : Nat
  index : Nat
  bytesWritten : Nat
  initialBytesWritten : Nat
  next : Nat
  offset : Nat
  extraOffset : Nat
deriving Repr, DecidableEq

/-- The writing constructor
`FileBlock(imagePath, totalBlocks, index, next)` (`FileBlock.hpp` lines
28-59): seek to the block's offset, write a fresh 4-byte `bytesWritten = 0`
followed by the 8-byte `next`; members start at
`bytesWritten = initialBytesWritten = extraOffset = 0`.  It performs no
bitmap update (that is the separate `registerBlockWithVolumeBitmap`). -/
def mkFileBlockForWriting (totalBlocks index next : Nat) (d : Disk) :
    FileBlock × Disk :=
  let off := getOffsetOfFileBlock index totalBlocks
  let d1 := writeBytes d off (convertInt32ToInt4Array 0)
  let d2 := writeBytes d1 (off + 4) (convertUInt64ToInt8Array next)
  ({ totalBlocks := totalBlocks, index := index, bytesWritten := 0,
     initialBytesWritten := 0, next := next, offset := off,
     extraOffset := 0 }, d2)

/-- The reading constructor `FileBlock(imagePath, totalBlocks, index)`
(`FileBlock.hpp` lines 67-95): read the 4-byte `bytesWritten` (recorded as
both current and initial count) and the 8-byte `next` from the block's
header. -/
def mkFileBlockForReading (totalBlocks index : Nat) (d : Disk) : FileBlock :=
  let off := getOffsetOfFileBlock index totalBlocks
  let bw := convertInt4ArrayToInt32 (readBytes d off 4)
  { totalBlocks := totalBlocks, index := index, bytesWritten := bw,
    initialBytesWritten := bw,
    next := convertInt8ArrayToInt64 (readBytes d (off + 4) 8),
    offset := off, extraOffset := 0 }

/-- Embedding of `FileBlock::setExtraOffset`. -/
def FileBlock.setExtraOffset (fb : FileBlock) (extraOffset : Nat) :
    FileBlock :=
  { fb with extraOffset := extraOffset }

/-- Embedding of `FileBlock::read(buf, n)` (`FileBlock.hpp` lines 106-115): open the
image, seek to `m_offset + FILE_BLOCK_META + m_extraOffset`, read `n`
payload bytes, close, return `n`.  No member and no disk byte is written,
so the resulting state is the input state. -/
def FileBlock.read (fb : FileBlock) (d : Disk) (n : Nat) :
    (FileBlock × Disk) × List Nat × Nat :=
  ((fb, d),
    readBytes d (fb.offset + FILE_BLOCK_META + fb.extraOffset) n, n)

/-- Embedding of `FileBlock::write(buf, n)` (`FileBlock.hpp` lines 117-149), with
`n = buf.length`: write the payload at
`m_offset + FILE_BLOCK_META + m_extraOffset`; unconditionally
`m_bytesWritten += uint32_t(n)` and rewrite the 4-byte count at `m_offset`;
then, if `n < FILE_BLOCK_SIZE - FILE_BLOCK_META` or `m_extraOffset > 0`,
set `m_next := m_index` and rewrite the 8-byte `next` at `m_offset + 4`
(the stream put position after the 4-byte count write); return `n`. -/
def FileBlock.write (fb : FileBlock) (d : Disk) (buf : List Nat) :
    FileBlock × Disk × Nat :=
  let n := buf.length
  let d1 := writeBytes d (fb.offset + FILE_BLOCK_META + fb.extraOffset) buf
  let bw := (fb.bytesWritten + n) % 2 ^ 32
  let d2 := writeBytes d1 fb.offset (convertInt32ToInt4Array bw)
  if n < FILE_BLOCK_SIZE - FILE_BLOCK_META ∨ 0 < fb.extraOffset then
    ({ fb with bytesWritten := bw, next := fb.index },
      writeBytes d2 (fb.offset + 4) (convertUInt64ToInt8Array fb.index), n)
  else
    ({ fb with bytesWritten := bw }, d2, n)

/-- Embedding of `FileBlock::setNext(next)` (`FileBlock.hpp` lines 176-187): update
`m_next` and rewrite the 8-byte `next` field at `m_offset + 4`. -/
def FileBlock.setNext (fb : FileBlock) (d : Disk) (next : Nat) :
    FileBlock × Disk :=
  ({ fb with next := next },
    writeBytes d (fb.offset + 4) (convertUInt64ToInt8Array next))

/-- Embedding of `FileBlock::registerBlockWithVolumeBitmap` (`FileBlock.hpp` lines
189-194). -/
def FileBlock.registerBlockWithVolumeBitmap (fb : FileBlock) (d : Disk) :
    Disk :=
  updateVolumeBitmapWithOne d fb.index fb.totalBlocks

end bfs

namespace teasafe

namespace cipher

/-- Embedding of `NullByteTransformer::doEncrypt` (`NullByteTransformer.cpp`): the output
buffer receives `in[i]` for every `i < length`; the start position is unused. -/
def NullByteTransformer.doEncrypt (inp : List Nat) (startPosition : Int)
    (length : Nat) : List Nat :=
  (List.range length).map (fun i => inp.getD i 0)

/-- Embedding of `NullByteTransformer::doDecrypt` (`NullByteTransformer.cpp`): identical
byte-for-byte copy loop. -/
def NullByteTransformer.doDecrypt (inp : List Nat) (startPosition : Int)
    (length : Nat) : List Nat :=
  (List.range length).map (fun i => inp.getD i 0)

end cipher

open bfs in
/-- Embedding of `ContainerImageStream` state (`ContainerImageStream.cpp`): the backing
host file bytes and the mirrored get/put positions `m_gpos` / `m_ppos`
(`std::streamoff`, hence `Int`: failure is recorded as `-1`). -/
structure ContainerImageStream where
  host : Nat → Nat
  gpos : Int
  ppos : Int

open bfs in
/-- Embedding of `ContainerImageStream::read`: host-read `n` ciphertext bytes at `gpos`;
if the host read goes bad, set `gpos := -1` and return nothing; otherwise
advance `gpos` by `n` and return `decrypt(ciphertext, start, n)` where
`start` is the value of `gpos` at the time of the call.  Success of the host
read is an input (`hostOk`), since it depends on the host environment. -/
def ContainerImageStream.read (dec : List Nat → Int → List Nat)
    (s : ContainerImageStream) (hostOk : Bool) (n : Nat) :
    ContainerImageStream × Option (List Nat) :=
  let start := s.gpos
  if hostOk then
    ({ s with gpos := s.gpos + n },
      some (dec (readBytes s.host s.gpos.toNat n) start))
  else
    ({ s with gpos := -1 }, none)

open bfs in
/-- Embedding of `ContainerImageStream::write`: compute `encrypt(buf, start, n)` with
`start = ppos`, host-write the ciphertext; if the host write goes bad, set
`ppos := -1` (the host bytes after a failed write are not modelled and are
left unchanged); otherwise advance `ppos` by `n`.  Here `n = buf.length`. -/
def ContainerImageStream.write (enc : List Nat → Int → List Nat)
    (s : ContainerImageStream) (hostOk : Bool) (buf : List Nat) :
    ContainerImageStream :=
  let start := s.ppos
  let out := enc buf start
  if hostOk then
    { s with host := writeBytes s.host s.ppos.toNat out,
             ppos := s.ppos + buf.length }
  else
    { s with ppos := -1 }

end teasafe

/-!
## File-entry model

Modelled from the spec: the `FileEntry`/`TeaSafeFile` implementation file is
not among the sources (only its declaration header `TeaSafeFile.hpp` and its
test driver `FileEntryTest.hpp` are), so the chain-of-blocks file entry of
spec section 4.5 is modelled here at block granularity, faithful to the
spec's words: an image of `N` blocks, each with a `next` index and a payload
of at most `P = B - 12` valid bytes (`bytesWritten` is the payload length;
the undefined tail of the fixed-size block is not modelled, as callers must
respect `bytesWritten`), plus the volume bitmap.  A fresh block is created
with `bytesWritten = 0` and `next = self`; a pure append fills the last
block up to `P` and then repeatedly allocates the first free block,
points the old last block's `next` at it (`setNext`) and fills it; a chain
is walked following `next` until `next == self`, with at most `N` hops. -/

namespace fe

/-- A file block at chain granularity: the `next` header field and the
currently valid payload bytes (so `bytesWritten = payload.length`). -/
structure Block where
  next : Nat
  payload : List Nat

/-- The image at chain granularity: total block count, the blocks, and the
volume bitmap. -/
structure Image where
  numBlocks : Nat
  blocks : Nat → Block
  bitmap : Nat → Bool

/-- An image whose blocks are all free and empty. -/
def freshImage (numBlocks : Nat) : Image :=
  { numBlocks := numBlocks, blocks := fun _ => { next := 0, payload := [] },
    bitmap := fun _ => false }

/-- Modelled from the spec: the bitmap allocation policy `firstFree` returns
the smallest in-range index whose bit is `0`, or nothing when all are `1`. -/
def firstFree (img : Image) : Option Nat :=
  (List.range img.numBlocks).find? (fun i => !img.bitmap i)

/-- Replace block `i` of the image. -/
def setBlock (img : Image) (i : Nat) (b : Block) : Image :=
  { img with blocks := fun j => if j = i then b else img.blocks j }

/-- Set the bitmap bit of block `i`. -/
def markUsed (img : Image) (i : Nat) : Image :=
  { img with bitmap := fun j => if j = i then true else img.bitmap j }

/-- Open file-entry state: the in-memory list of chain block indices (in
order, starting with the start block) and the reported file size. -/
structure Entry where
  chain : List Nat
  fileSize : Nat

/-- Modelled from the spec (section 4.5, Opening, CreateNew): allocate the
start block via `firstFree`, mark its bit, write a fresh header
(`bytesWritten = 0`, `next = self`); the chain is that single block and the
file size is 0.  Fails when the bitmap has no free block. -/
def createEntry (img : Image) : Option (Image × Entry) :=
  match firstFree img with
  | none => none
  | some b =>
      some (markUsed (setBlock img b { next := b, payload := [] }) b,
        { chain := [b], fileSize := 0 })

/-- Helper for `chunks`: structural recursion on a fuel that at every call
site is at least the list length, so it never runs out. -/
def chunksGo (p : Nat) : Nat → List α → List (List α)
  | _, [] => []
  | 0, a :: l => [a :: l]
  | fuel + 1, a :: l =>
      (a :: l).take (p + 1) :: chunksGo p fuel ((a :: l).drop (p + 1))

/-- Split a list into consecutive chunks of `P` elements (the last chunk may
be shorter).  For `P = 0` the whole list is a single degenerate chunk. -/
def chunks : Nat → List α → List (List α)
  | 0, [] => []
  | 0, a :: l => [a :: l]
  | p + 1, l => chunksGo p l.length l

/-- Modelled from the spec (section 4.5, Write, pure append): for each
remaining chunk, allocate a new block via `firstFree` (failing with
`NoSpace` when the bitmap is full), point the old last block's `next` at it
(`FileBlock::setNext`), write the chunk into the new block — a fresh block
followed by a block write of `n ≤ P` bytes leaves `next = self` — mark its
bitmap bit, and append it to the in-memory chain. -/
def appendChunks (img : Image) (chain : List Nat) :
    List (List Nat) → Option (Image × List Nat)
  | [] => some (img, chain)
  | c :: cs =>
      match firstFree img with
      | none => none
      | some k =>
          let lastIdx := chain.getLastD 0
          let old := img.blocks lastIdx
          let img1 := setBlock img lastIdx { next := k, payload := old.payload }
          let img2 := markUsed (setBlock img1 k { next := k, payload := c }) k
          appendChunks img2 (chain ++ [k]) cs

/-- Modelled from the spec (section 4.5, Write, pure append, as exercised by
a fresh or append-positioned entry where `pos = fileSize`): fill the current
last block up to `P` bytes, then write the remaining bytes in chunks of `P`
into newly allocated blocks; finally `fileSize += |s|`. -/
def appendBytes (P : Nat) (img : Image) (e : Entry) (s : List Nat) :
    Option (Image × Entry) :=
  let lastIdx := e.chain.getLastD 0
  let b := img.blocks lastIdx
  let room := P - b.payload.length
  let img1 := setBlock img lastIdx
    { next := b.next, payload := b.payload ++ s.take room }
  match appendChunks img1 e.chain (chunks P (s.drop room)) with
  | none => none
  | some (img2, chain2) =>
      some (img2, { chain := chain2, fileSize := e.fileSize + s.length })

/-- Apply a sequence of appending writes to an open entry. -/
def applyWrites (P : Nat) (img : Image) (e : Entry) :
    List (List Nat) → Option (Image × Entry)
  | [] => some (img, e)
  | s :: rest =>
      match appendBytes P img e s with
      | none => none
      | some (img2, e2) => applyWrites P img2 e2 rest

/-- Create a fresh entry on a fresh image of `N` blocks and apply a sequence
of appending writes. -/
def createAndApply (P N : Nat) (ops : List (List Nat)) :
    Option (Image × Entry) :=
  match createEntry (freshImage N) with
  | none => none
  | some (img, e) => applyWrites P img e ops

/-- Modelled from the spec (section 4.5, Opening, and error `BadChain`):
walk the chain from a start block by reading each block's header until
`next == self`, failing when the walk exceeds the fuel (`N` hops). -/
def walkChain (img : Image) : Nat → Nat → Option (List Nat)
  | 0, _ => none
  | fuel + 1, i =>
      if (img.blocks i).next = i then some [i]
      else
        match walkChain img fuel (img.blocks i).next with
        | none => none
        | some rest => some (i :: rest)

/-- The bytes of a chain: the concatenation of the valid payloads of its
blocks, in chain order. -/
def content (img : Image) (chain : List Nat) : List Nat :=
  (chain.map (fun i => (img.blocks i).payload)).flatten

/-- Modelled from the spec: re-open an entry on a start block (walking the
chain, with the file size recovered as the sum of the blocks'
`bytesWritten`) and read the whole file, i.e. `fileSize` bytes. -/
def readAll (img : Image) (start : Nat) : Option (List Nat) :=
  match walkChain img img.numBlocks start with
  | none => none
  | some chain => some (content img chain)

/-- Adjacent chain links: each block's `next` header field names the
following block of the list. -/
def linked (img : Image) : List Nat → Prop
  | [] => True
  | [_] => True
  | a :: b :: rest => (img.blocks a).next = b ∧ linked img (b :: rest)

/-- The file-chain well-formedness invariant of spec section 3 ("File
chain") and 4.5 ("Invariants maintained across every operation"). -/
structure GoodChain (P : Nat) (img : Image) (chain : List Nat) : Prop where
  ne : chain ≠ []
  nodup : chain.Nodup
  mem_lt : ∀ i ∈ chain, i < img.numBlocks
  mem_bitmap : ∀ i ∈ chain, img.bitmap i = true
  links : linked img chain
  full : ∀ i ∈ chain.dropLast, (img.blocks i).payload.length = P
  last_self : (img.blocks (chain.getLastD 0)).next = chain.getLastD 0
  last_le : (img.blocks (chain.getLastD 0)).payload.length ≤ P

end fe

/-! ## Theorems: byte-store and serialisation lemmas -/

namespace bfs

theorem writeBytes_apply_of_lt (d : Disk) (off : Nat) (bs : List Nat) (a : Nat)
    (h : a < off) : writeBytes d off bs a = d a := by
  simp only [writeBytes]
  rw [if_neg]
  omega

theorem writeBytes_apply_of_ge (d : Disk) (off : Nat) (bs : List Nat) (a : Nat)
    (h : off + bs.length ≤ a) : writeBytes d off bs a = d a := by
  simp only [writeBytes]
  rw [if_neg]
  omega

theorem writeBytes_apply_inside (d : Disk) (off : Nat) (bs : List Nat) (i : Nat)
    (h : i < bs.length) : writeBytes d off bs (off + i) = bs.getD i 0 := by
  simp only [writeBytes]
  rw [if_pos (by omega)]
  congr 1
  omega

theorem readBytes_writeBytes (d : Disk) (off : Nat) (bs : List Nat) :
    readBytes (writeBytes d off bs) off bs.length = bs := by
  apply List.ext_getElem
  · simp [readBytes]
  · intro i h1 h2
    simp only [readBytes] at h1 ⊢
    simp only [List.getElem_map, List.getElem_range]
    rw [writeBytes_apply_inside d off bs i (by simpa [readBytes] using h2)]
    exact List.getD_eq_getElem bs 0 _

theorem readBytes_congr (d1 d2 : Disk) (off n : Nat)
    (h : ∀ a, off ≤ a → a < off + n → d1 a = d2 a) :
    readBytes d1 off n = readBytes d2 off n := by
  simp only [readBytes]
  apply List.map_congr_left
  intro i hi
  exact h (off + i) (by omega) (by simp at hi; omega)

theorem toLE_length (w v : Nat) : (toLE w v).length = w := by
  induction w generalizing v with
  | zero => simp [toLE]
  | succ w ih => simp [toLE, ih]

theorem fromLE_toLE (w v : Nat) : fromLE (toLE w v) = v % 256 ^ w := by
  induction w generalizing v with
  | zero => simp [toLE, fromLE, Nat.mod_one]
  | succ w ih =>
    simp only [toLE, fromLE, ih]
    rw [pow_succ, mul_comm (256 ^ w) 256, Nat.mod_mul]

theorem convertInt32ToInt4Array_length (v : Nat) :
    (convertInt32ToInt4Array v).length = 4 :=
  toLE_length 4 v

theorem convertUInt64ToInt8Array_length (v : Nat) :
    (convertUInt64ToInt8Array v).length = 8 :=
  toLE_length 8 v

/-- C9: serialising any 64-bit unsigned value with
`convertUInt64ToInt8Array` and deserialising the resulting 8-byte array
with `convertInt8ArrayToInt64` yields the value again, so the assertion in
the `FileBlock` writing constructor holds for every `next` value. -/
theorem c9_uint64_serialisation_round_trip (v : Nat) (h : v < 2 ^ 64) :
    convertInt8ArrayToInt64 (convertUInt64ToInt8Array v) = v := by
  simp only [convertInt8ArrayToInt64, convertUInt64ToInt8Array, fromLE_toLE]
  have h256 : (256 : Nat) ^ 8 = 2 ^ 64 := by norm_num
  rw [h256, Nat.mod_eq_of_lt h]

/-- Witness for C9 at the largest 64-bit value. -/
theorem c9_uint64_serialisation_round_trip_witness :
    2 ^ 64 - 1 < 2 ^ 64 ∧
      convertInt8ArrayToInt64 (convertUInt64ToInt8Array (2 ^ 64 - 1)) =
        2 ^ 64 - 1 :=
  ⟨by norm_num, c9_uint64_serialisation_round_trip (2 ^ 64 - 1) (by norm_num)⟩

/-- C10: `FileBlock::read` leaves the block's header state —
`bytesWritten`, `initialBytesWritten`, `next` — unchanged, leaves every
disk byte (hence the on-disk header and the block's bitmap bit) unchanged,
returns `n`, and the bytes it yields are read from the payload region at
`offset + FILE_BLOCK_META + extraOffset`. -/
theorem c10_read_is_pure (fb : FileBlock) (d : Disk) (n : Nat) :
    (fb.read d n).1.1 = fb ∧
    (∀ a, (fb.read d n).1.2 a = d a) ∧
    isBlockInUse fb.index fb.totalBlocks (fb.read d n).1.2 =
      isBlockInUse fb.index fb.totalBlocks d ∧
    (fb.read d n).2.1 =
      readBytes d (fb.offset + FILE_BLOCK_META + fb.extraOffset) n ∧
    (fb.read d n).2.2 = n := by
  simp [FileBlock.read]

/-- C2 counterexample: a `FileBlock` with intra-block `extraOffset = 1 > 0`
(an in-place overwrite rather than an append) still has its `bytesWritten`
count incremented by `FileBlock::write` (here from 3 to 5), contradicting
the claim that a write at a nonzero `extraOffset` leaves `bytesWritten`
unchanged. -/
theorem c2_overwrite_counterexample :
    ¬ ((FileBlock.write
        { totalBlocks := 8, index := 1, bytesWritten := 3,
          initialBytesWritten := 3, next := 1, offset := 1024,
          extraOffset := 1 } (fun _ => 0) [7, 7]).1.bytesWritten = 3) := by
  decide

/-- C2 amended: `FileBlock::write` increments `bytesWritten` by `n`
unconditionally (as 32-bit arithmetic), whether the write is an append or
an in-place overwrite at a nonzero `extraOffset`; the only-append-grows
discipline is a caller obligation, not enforced by `FileBlock`. -/
theorem c2_bytesWritten_always_incremented (fb : FileBlock) (d : Disk)
    (buf : List Nat) :
    (fb.write d buf).1.bytesWritten = (fb.bytesWritten + buf.length) % 2 ^ 32
    := by
  simp only [FileBlock.write]
  split <;> rfl

/-- C3: after `FileBlock::write(buf, n)`, if `n < B - 12` or
`extraOffset > 0` then the block's `next` field equals its own index, both
in the in-memory member and in the 8 on-disk header bytes at
`offset + 4`; otherwise both are left unchanged. -/
theorem c3_write_next_self_loop (fb : FileBlock) (d : Disk)
    (buf : List Nat) :
    (fb.write d buf).1.next =
      (if buf.length < FILE_BLOCK_SIZE - FILE_BLOCK_META ∨ 0 < fb.extraOffset
        then fb.index else fb.next) ∧
    readBytes (fb.write d buf).2.1 (fb.offset + 4) 8 =
      (if buf.length < FILE_BLOCK_SIZE - FILE_BLOCK_META ∨ 0 < fb.extraOffset
        then convertUInt64ToInt8Array fb.index
        else readBytes d (fb.offset + 4) 8) := by
  simp only [FileBlock.write]
  split
  · constructor
    · rfl
    · have h8 := readBytes_writeBytes
        (writeBytes
          (writeBytes d (fb.offset + FILE_BLOCK_META + fb.extraOffset) buf)
          fb.offset
          (convertInt32ToInt4Array ((fb.bytesWritten + buf.length) % 2 ^ 32)))
        (fb.offset + 4) (convertUInt64ToInt8Array fb.index)
      rw [convertUInt64ToInt8Array_length] at h8
      exact h8
  · constructor
    · rfl
    · apply readBytes_congr
      intro a ha1 ha2
      show writeBytes
          (writeBytes d (fb.offset + FILE_BLOCK_META + fb.extraOffset) buf)
          fb.offset
          (convertInt32ToInt4Array ((fb.bytesWritten + buf.length) % 2 ^ 32))
          a = d a
      rw [writeBytes_apply_of_ge _ _ _ _
          (by rw [convertInt32ToInt4Array_length]; omega)]
      rw [writeBytes_apply_of_lt _ _ _ _
          (by simp only [FILE_BLOCK_META]; omega)]

theorem isBlockInUse_update (d : Disk) (index totalBlocks : Nat) :
    isBlockInUse index totalBlocks
      (updateVolumeBitmapWithOne d index totalBlocks) = true := by
  simp only [isBlockInUse, updateVolumeBitmapWithOne]
  have hin := writeBytes_apply_inside d (bitmapByteOffset index)
    [d (bitmapByteOffset index) ||| 1 <<< (index % 8)] 0 (by simp)
  rw [Nat.add_zero] at hin
  rw [hin]
  simp [Nat.testBit_or, Nat.shiftLeft_eq, Nat.testBit_two_pow_self]

/-- C8 counterexample: the writing constructor
`FileBlock(imagePath, totalBlocks, index, next)` alone does not mark the
block's bit in the volume bitmap — on an all-zero image of 8 blocks, after
constructing block 1 for writing, block 1's bitmap bit still reads 0. -/
theorem c8_constructor_bitmap_counterexample :
    isBlockInUse 1 8 (mkFileBlockForWriting 8 1 1 (fun _ => 0)).2 = false := by
  decide

/-- C8 amended: the writing constructor writes a fresh header at image
offset `HDR + index * B` — 4 bytes `bytesWritten = 0` followed by the
8-byte given `next` — and the block's bitmap bit is marked by the separate
`registerBlockWithVolumeBitmap` call, after which it reads 1. -/
theorem c8_constructor_header_and_register (totalBlocks index next : Nat)
    (d : Disk) :
    (mkFileBlockForWriting totalBlocks index next d).1.offset =
      hdrSize totalBlocks + index * FILE_BLOCK_SIZE ∧
    (mkFileBlockForWriting totalBlocks index next d).1.bytesWritten = 0 ∧
    (mkFileBlockForWriting totalBlocks index next d).1.next = next ∧
    readBytes (mkFileBlockForWriting totalBlocks index next d).2
        (getOffsetOfFileBlock index totalBlocks) 4 =
      convertInt32ToInt4Array 0 ∧
    readBytes (mkFileBlockForWriting totalBlocks index next d).2
        (getOffsetOfFileBlock index totalBlocks + 4) 8 =
      convertUInt64ToInt8Array next ∧
    isBlockInUse index totalBlocks
      ((mkFileBlockForWriting totalBlocks index next d).1.registerBlockWithVolumeBitmap
        (mkFileBlockForWriting totalBlocks index next d).2) = true := by
  refine ⟨rfl, rfl, rfl, ?_, ?_, ?_⟩
  · simp only [mkFileBlockForWriting]
    rw [readBytes_congr _
        (writeBytes d (getOffsetOfFileBlock index totalBlocks)
          (convertInt32ToInt4Array 0)) _ _
        (fun a ha1 ha2 => writeBytes_apply_of_lt _ _ _ _ (by omega))]
    have h4 := readBytes_writeBytes d (getOffsetOfFileBlock index totalBlocks)
      (convertInt32ToInt4Array 0)
    rw [convertInt32ToInt4Array_length] at h4
    exact h4
  · simp only [mkFileBlockForWriting]
    have h8 := readBytes_writeBytes
      (writeBytes d (getOffsetOfFileBlock index totalBlocks)
        (convertInt32ToInt4Array 0))
      (getOffsetOfFileBlock index totalBlocks + 4)
      (convertUInt64ToInt8Array next)
    rw [convertUInt64ToInt8Array_length] at h8
    exact h8
  · exact isBlockInUse_update (mkFileBlockForWriting totalBlocks index next d).2
      index totalBlocks

end bfs

/-! ## Theorems: cipher and stream -/

namespace teasafe

theorem nullCopy_eq_self (x : List Nat) :
    (List.range x.length).map (fun i => x.getD i 0) = x := by
  apply List.ext_getElem
  · simp
  · intro i h1 h2
    simp only [List.getElem_map, List.getElem_range]
    exact List.getD_eq_getElem x 0 _

/-- C6: decrypting the encryption of any byte string at the same offset
returns the string, for the null pass-through byte transformer (the only
transformer variant among the sources); here `n` is the common buffer
length. -/
theorem c6_null_transformer_round_trip (x : List Nat) (o : Int) (n : Nat)
    (h : x.length = n) :
    cipher.NullByteTransformer.doDecrypt
      (cipher.NullByteTransformer.doEncrypt x o n) o n = x := by
  subst h
  have h1 : cipher.NullByteTransformer.doEncrypt x o x.length = x :=
    nullCopy_eq_self x
  simp only [cipher.NullByteTransformer.doDecrypt,
    cipher.NullByteTransformer.doEncrypt] at h1 ⊢
  rw [h1, nullCopy_eq_self]

/-- Witness for C6 at a concrete string and a negative offset. -/
theorem c6_null_transformer_round_trip_witness :
    ([3, 9, 27] : List Nat).length = 3 ∧
      cipher.NullByteTransformer.doDecrypt
        (cipher.NullByteTransformer.doEncrypt [3, 9, 27] (-5) 3) (-5) 3 =
        [3, 9, 27] :=
  ⟨rfl, c6_null_transformer_round_trip [3, 9, 27] (-5) 3 rfl⟩

/-- C7: on host-I/O failure, `ContainerImageStream::read` sets `gpos` to
`-1` (and leaves `ppos` alone) and `ContainerImageStream::write` sets
`ppos` to `-1` (and leaves `gpos` alone); on success the corresponding
position advances by exactly `n`. -/
theorem c7_stream_position_policy (dec enc : List Nat → Int → List Nat)
    (s : ContainerImageStream) (n : Nat) (buf : List Nat) :
    (ContainerImageStream.read dec s false n).1.gpos = -1 ∧
    (ContainerImageStream.read dec s false n).1.ppos = s.ppos ∧
    (ContainerImageStream.read dec s true n).1.gpos = s.gpos + n ∧
    (ContainerImageStream.read dec s true n).1.ppos = s.ppos ∧
    (ContainerImageStream.write enc s false buf).ppos = -1 ∧
    (ContainerImageStream.write enc s false buf).gpos = s.gpos ∧
    (ContainerImageStream.write enc s true buf).ppos = s.ppos + buf.length ∧
    (ContainerImageStream.write enc s true buf).gpos = s.gpos := by
  simp [ContainerImageStream.read, ContainerImageStream.write]

open bfs in
/-- C5: a successful `ContainerImageStream::write` stores exactly
`encrypt(plaintext, ppos-at-write, n)` on the host; a successful
`ContainerImageStream::read` returns `decrypt(ciphertext, gpos-at-read, n)`;
hence, for a transformer satisfying the positional round-trip contract,
reading back a just-written range yields the plaintext — callers above the
stream never observe ciphertext. -/
theorem c5_stream_positional_encryption
    (enc dec : List Nat → Int → List Nat) (s : ContainerImageStream)
    (buf : List Nat) (n : Nat)
    (henc : ∀ x p, (enc x p).length = x.length)
    (hdec : ∀ x p, dec (enc x p) p = x)
    (hpos : 0 ≤ s.ppos) (hsync : s.gpos = s.ppos) :
    readBytes (ContainerImageStream.write enc s true buf).host
        s.ppos.toNat buf.length = enc buf s.ppos ∧
    (ContainerImageStream.read dec s true n).2 =
      some (dec (readBytes s.host s.gpos.toNat n) s.gpos) ∧
    (ContainerImageStream.read dec
        (ContainerImageStream.write enc s true buf) true buf.length).2 =
      some buf := by
  have hstore : readBytes (ContainerImageStream.write enc s true buf).host
      s.ppos.toNat buf.length = enc buf s.ppos := by
    simp only [ContainerImageStream.write, if_pos]
    have hw := readBytes_writeBytes s.host s.ppos.toNat (enc buf s.ppos)
    rw [henc] at hw
    exact hw
  refine ⟨hstore, rfl, ?_⟩
  have hg : (ContainerImageStream.write enc s true buf).gpos = s.ppos := by
    simp [ContainerImageStream.write, hsync]
  have h3 : (ContainerImageStream.read dec
      (ContainerImageStream.write enc s true buf) true buf.length).2 =
      some (dec
        (readBytes (ContainerImageStream.write enc s true buf).host
          (ContainerImageStream.write enc s true buf).gpos.toNat buf.length)
        (ContainerImageStream.write enc s true buf).gpos) := rfl
  rw [h3, hg, hstore, hdec]

/-- Witness for C5 with the identity transformer on a zeroed host. -/
theorem c5_stream_positional_encryption_witness :
    (∀ x p, ((fun (x : List Nat) (_ : Int) => x) x p).length = x.length) ∧
    (∀ x p, (fun (x : List Nat) (_ : Int) => x)
        ((fun (x : List Nat) (_ : Int) => x) x p) p = x) ∧
    (0 : Int) ≤ (0 : Int) ∧
    (bfs.readBytes (ContainerImageStream.write (fun x _ => x)
          { host := fun _ => 0, gpos := 0, ppos := 0 } true [1, 2]).host
        (0 : Int).toNat 2 = [1, 2] ∧
      (ContainerImageStream.read (fun x _ => x)
          { host := fun _ => 0, gpos := 0, ppos := 0 } true 1).2 =
        some ((fun x _ => x)
          (bfs.readBytes (fun _ => 0) (0 : Int).toNat 1) (0 : Int)) ∧
      (ContainerImageStream.read (fun x _ => x)
          (ContainerImageStream.write (fun x _ => x)
            { host := fun _ => 0, gpos := 0, ppos := 0 } true [1, 2])
          true 2).2 = some [1, 2]) :=
  ⟨fun x p => rfl, fun x p => rfl, le_refl 0,
    c5_stream_positional_encryption (fun x _ => x) (fun x _ => x)
      { host := fun _ => 0, gpos := 0, ppos := 0 } [1, 2] 1
      (fun x p => rfl) (fun x p => rfl) (le_refl 0) rfl⟩

end teasafe

/-! ## Theorems: the file-entry chain model -/

namespace fe

@[simp]
theorem setBlock_blocks (img : Image) (i : Nat) (b : Block) (j : Nat) :
    (setBlock img i b).blocks j = if j = i then b else img.blocks j := rfl

@[simp]
theorem setBlock_bitmap (img : Image) (i : Nat) (b : Block) (j : Nat) :
    (setBlock img i b).bitmap j = img.bitmap j := rfl

@[simp]
theorem setBlock_numBlocks (img : Image) (i : Nat) (b : Block) :
    (setBlock img i b).numBlocks = img.numBlocks := rfl

@[simp]
theorem markUsed_blocks (img : Image) (i : Nat) (j : Nat) :
    (markUsed img i).blocks j = img.blocks j := rfl

@[simp]
theorem markUsed_bitmap (img : Image) (i : Nat) (j : Nat) :
    (markUsed img i).bitmap j = if j = i then true else img.bitmap j := rfl

@[simp]
theorem markUsed_numBlocks (img : Image) (i : Nat) :
    (markUsed img i).numBlocks = img.numBlocks := rfl

theorem chunks_nil (P : Nat) : chunks P ([] : List α) = [] := by
  cases P <;> rfl

theorem chunksGo_congr (p : Nat) :
    ∀ (fuel1 : Nat) (l : List α) (fuel2 : Nat),
      l.length ≤ fuel1 → l.length ≤ fuel2 →
      chunksGo p fuel1 l = chunksGo p fuel2 l := by
  intro fuel1
  induction fuel1 with
  | zero =>
      intro l fuel2 h1 h2
      cases l with
      | nil => cases fuel2 <;> rfl
      | cons a l => simp at h1
  | succ f ih =>
      intro l fuel2 h1 h2
      cases l with
      | nil => cases fuel2 <;> rfl
      | cons a l =>
          cases fuel2 with
          | zero => simp at h2
          | succ f2 =>
              simp only [chunksGo]
              congr 1
              refine ih _ _ ?_ ?_
              · simp only [List.length_drop, List.length_cons] at h1 ⊢
                omega
              · simp only [List.length_drop, List.length_cons] at h2 ⊢
                omega

theorem chunks_cons (p : Nat) (a : α) (l : List α) :
    chunks (p + 1) (a :: l) =
      (a :: l).take (p + 1) :: chunks (p + 1) ((a :: l).drop (p + 1)) := by
  show chunksGo p (a :: l).length (a :: l) = _
  have hlen : (a :: l).length = l.length + 1 := rfl
  rw [hlen]
  simp only [chunksGo]
  congr 1
  show chunksGo p l.length _ =
    chunksGo p ((a :: l).drop (p + 1)).length ((a :: l).drop (p + 1))
  refine chunksGo_congr p l.length _ _ ?_ (le_refl _)
  simp [List.length_drop]

theorem chunks_flatten (p : Nat) :
    (l : List α) → (chunks (p + 1) l).flatten = l
  | [] => by simp [chunks_nil]
  | a :: l => by
      rw [chunks_cons]
      simp only [List.flatten_cons]
      rw [chunks_flatten p ((a :: l).drop (p + 1))]
      exact List.take_append_drop _ _
termination_by l => l.length
decreasing_by simp; omega

theorem chunks_length_le (p : Nat) :
    (l : List α) → ∀ c ∈ chunks (p + 1) l, c.length ≤ p + 1
  | [] => by simp [chunks_nil]
  | a :: l => by
      rw [chunks_cons]
      intro c hc
      rcases List.mem_cons.mp hc with h | h
      · subst h
        simp [List.length_take]
      · exact chunks_length_le p ((a :: l).drop (p + 1)) c h
termination_by l => l.length
decreasing_by simp; omega

theorem chunks_eq_nil_of_nil (P : Nat) (l : List α) (h : l = []) :
    chunks P l = [] := by
  subst h
  exact chunks_nil P

theorem chunks_ne_nil (p : Nat) (l : List α) (h : l ≠ []) :
    chunks (p + 1) l ≠ [] := by
  cases l with
  | nil => exact absurd rfl h
  | cons a l =>
      rw [chunks_cons]
      simp

theorem chunks_dropLast_length (p : Nat) :
    (l : List α) → ∀ c ∈ (chunks (p + 1) l).dropLast, c.length = p + 1
  | [] => by simp [chunks_nil]
  | a :: l => by
      rw [chunks_cons]
      by_cases hd : (a :: l).drop (p + 1) = []
      · rw [chunks_eq_nil_of_nil (p + 1) _ hd]
        simp
      · rw [List.dropLast_cons_of_ne_nil (chunks_ne_nil p _ hd)]
        intro c hc
        rcases List.mem_cons.mp hc with h | h
        · have hlen : p + 1 ≤ (a :: l).length := by
            by_contra hcon
            exact hd (List.drop_eq_nil_of_le (by omega))
          rw [h, List.length_take, Nat.min_eq_left hlen]
        · exact chunks_dropLast_length p ((a :: l).drop (p + 1)) c h
termination_by l => l.length
decreasing_by simp; omega

theorem chunks_length_eq (p : Nat) :
    (l : List α) → (chunks (p + 1) l).length = (l.length + p) / (p + 1)
  | [] => by
      simp [chunks_nil]
      rw [Nat.div_eq_of_lt (by omega)]
  | a :: l => by
      rw [chunks_cons]
      simp only [List.length_cons]
      rw [chunks_length_eq p ((a :: l).drop (p + 1))]
      simp only [List.length_drop, List.length_cons]
      have hL : l.length + 1 + p = (l.length) + (p + 1) := by omega
      rw [hL, Nat.add_div_right _ (by omega)]
      by_cases hc : l.length + 1 ≤ p + 1
      · have h1 : l.length + 1 - (p + 1) = 0 := by omega
        rw [h1]
        rw [Nat.div_eq_of_lt (by omega), Nat.div_eq_of_lt (by omega)]
      · have h1 : l.length + 1 - (p + 1) + p = l.length := by omega
        rw [h1]
termination_by l => l.length
decreasing_by simp; omega

theorem getLastD_mem (d : Nat) :
    ∀ (l : List Nat), l ≠ [] → l.getLastD d ∈ l
  | [a], _ => by simp
  | a :: b :: t, _ => by
      rw [List.getLastD_cons]
      exact List.mem_cons_of_mem a (getLastD_mem a (b :: t) (by simp))

theorem getLastD_irrel :
    ∀ (l : List Nat), l ≠ [] → ∀ d1 d2 : Nat, l.getLastD d1 = l.getLastD d2
  | [_], _, _, _ => rfl
  | a :: b :: t, _, d1, d2 => by
      have h1 : (a :: b :: t).getLastD d1 = (b :: t).getLastD a :=
        List.getLastD_cons _ _ _
      have h2 : (a :: b :: t).getLastD d2 = (b :: t).getLastD a :=
        List.getLastD_cons _ _ _
      rw [h1, h2]

theorem getLastD_concat (l : List Nat) (a d : Nat) :
    (l ++ [a]).getLastD d = a := by
  induction l generalizing d with
  | nil => rfl
  | cons x l ih =>
      rw [List.cons_append, List.getLastD_cons]
      exact ih x

theorem dropLast_append_getLastD :
    ∀ (l : List Nat), l ≠ [] → l.dropLast ++ [l.getLastD 0] = l
  | [a], _ => by simp
  | a :: b :: t, _ => by
      rw [List.dropLast_cons₂, List.getLastD_cons, List.cons_append]
      rw [getLastD_irrel (b :: t) (by simp) a 0]
      rw [dropLast_append_getLastD (b :: t) (by simp)]

theorem headD_of_eq_append (l2 l : List Nat) (a : Nat) (h : l2 = a :: l)
    (d : Nat) : l2.headD d = a := by
  subst h
  rfl

theorem dropLast_ne_getLastD (l : List Nat) (hnd : l.Nodup) (hne : l ≠ []) :
    ∀ i ∈ l.dropLast, i ≠ l.getLastD 0 := by
  intro i hi he
  have hdecomp := dropLast_append_getLastD l hne
  rw [← hdecomp, List.nodup_append] at hnd
  exact hnd.2.2 hi (by rw [he]; exact List.mem_singleton_self _)

theorem mem_dropLast_of_ne_getLastD (l : List Nat) (hne : l ≠ []) :
    ∀ i ∈ l, i ≠ l.getLastD 0 → i ∈ l.dropLast := by
  intro i hi hne2
  have hdecomp := dropLast_append_getLastD l hne
  rw [← hdecomp] at hi
  rcases List.mem_append.mp hi with h | h
  · exact h
  · exact absurd (List.mem_singleton.mp h) hne2

theorem chain_length_le (N : Nat) (l : List Nat) (hnd : l.Nodup)
    (hmem : ∀ i ∈ l, i < N) : l.length ≤ N := by
  have h1 : l.toFinset.card = l.length := List.toFinset_card_of_nodup hnd
  have h2 : l.toFinset ⊆ Finset.range N := by
    intro x hx
    rw [List.mem_toFinset] at hx
    rw [Finset.mem_range]
    exact hmem x hx
  have h3 := Finset.card_le_card h2
  rw [h1, Finset.card_range] at h3
  exact h3

end fe

namespace fe

theorem linked_congr (img1 img2 : Image) :
    ∀ l : List Nat,
      (∀ i ∈ l.dropLast, (img2.blocks i).next = (img1.blocks i).next) →
      linked img1 l → linked img2 l
  | [], _, _ => trivial
  | [_], _, _ => trivial
  | a :: b :: t, h, hl => by
      refine ⟨?_, ?_⟩
      · rw [h a (by rw [List.dropLast_cons₂]; exact List.mem_cons_self _ _)]
        exact hl.1
      · refine linked_congr img1 img2 (b :: t) ?_ hl.2
        intro i hi
        exact h i (by rw [List.dropLast_cons₂]; exact List.mem_cons_of_mem _ hi)

theorem linked_concat (img : Image) :
    ∀ (l : List Nat) (k : Nat), linked img l →
      (l ≠ [] → (img.blocks (l.getLastD 0)).next = k) → linked img (l ++ [k])
  | [], k, _, _ => trivial
  | [x], k, _, h => ⟨h (by simp), trivial⟩
  | a :: b :: t, k, hl, h => by
      refine ⟨hl.1, ?_⟩
      refine linked_concat img (b :: t) k hl.2 ?_
      intro _
      have he : (a :: b :: t).getLastD 0 = (b :: t).getLastD 0 := by
        have h1 : (a :: b :: t).getLastD 0 = (b :: t).getLastD a :=
          List.getLastD_cons _ _ _
        rw [h1, getLastD_irrel (b :: t) (by simp) a 0]
      rw [← he]
      exact h (by simp)

theorem goodChain_tail (P : Nat) (img : Image) (a b : Nat) (t : List Nat)
    (h : GoodChain P img (a :: b :: t)) : GoodChain P img (b :: t) := by
  have hlast : (a :: b :: t).getLastD 0 = (b :: t).getLastD 0 := by
    have h1 : (a :: b :: t).getLastD 0 = (b :: t).getLastD a :=
      List.getLastD_cons _ _ _
    rw [h1, getLastD_irrel (b :: t) (by simp) a 0]
  refine ⟨by simp, h.nodup.of_cons, ?_, ?_, h.links.2, ?_, ?_, ?_⟩
  · intro i hi
    exact h.mem_lt i (List.mem_cons_of_mem a hi)
  · intro i hi
    exact h.mem_bitmap i (List.mem_cons_of_mem a hi)
  · intro i hi
    refine h.full i ?_
    rw [List.dropLast_cons₂]
    exact List.mem_cons_of_mem a hi
  · rw [← hlast]
    exact h.last_self
  · rw [← hlast]
    exact h.last_le

theorem goodChain_filter (P : Nat) (img : Image) :
    ∀ chain : List Nat, GoodChain P img chain →
      chain.filter (fun i => (img.blocks i).next == i) = [chain.getLastD 0]
  | [], h => absurd rfl h.ne
  | [a], h => by
      have hs : (img.blocks a).next = a := h.last_self
      simp [List.filter, hs]
  | a :: b :: t, h => by
      have hab : a ≠ b := by
        intro he
        have := h.nodup
        rw [List.nodup_cons] at this
        exact this.1 (he ▸ List.mem_cons_self b t)
      have hnext : (img.blocks a).next = b := h.links.1
      have hne : ((img.blocks a).next == a) = false := by
        rw [hnext]
        exact beq_eq_false_iff_ne.mpr (Ne.symm hab)
      have hlast : (a :: b :: t).getLastD 0 = (b :: t).getLastD 0 := by
        have h1 : (a :: b :: t).getLastD 0 = (b :: t).getLastD a :=
          List.getLastD_cons _ _ _
        rw [h1, getLastD_irrel (b :: t) (by simp) a 0]
      rw [List.filter_cons_of_neg (by rw [hne]; exact Bool.false_ne_true)]
      rw [goodChain_filter P img (b :: t) (goodChain_tail P img a b t h)]
      rw [hlast]

theorem walkChain_eq (img : Image) :
    ∀ (chain : List Nat) (fuel : Nat) (P : Nat), GoodChain P img chain →
      chain.length ≤ fuel → walkChain img fuel (chain.headD 0) = some chain
  | [], _, _, h, _ => absurd rfl h.ne
  | [a], fuel, P, h, hf => by
      cases fuel with
      | zero => simp at hf
      | succ f =>
          have hs : (img.blocks a).next = a := h.last_self
          simp [walkChain, hs]
  | a :: b :: t, fuel, P, h, hf => by
      cases fuel with
      | zero => simp at hf
      | succ f =>
          have hnext : (img.blocks a).next = b := h.links.1
          have hab : a ≠ b := by
            intro he
            have := h.nodup
            rw [List.nodup_cons] at this
            exact this.1 (he ▸ List.mem_cons_self b t)
          have hcond : ¬ (img.blocks a).next = a := by
            rw [hnext]
            exact Ne.symm hab
          have hrec := walkChain_eq img (b :: t) f P
            (goodChain_tail P img a b t h) (by simp at hf ⊢; omega)
          have hhead : (b :: t).headD 0 = b := rfl
          rw [hhead] at hrec
          simp only [walkChain, List.headD_cons]
          rw [if_neg hcond, hnext, hrec]

theorem content_congr (img1 img2 : Image) (l : List Nat)
    (h : ∀ i ∈ l, (img2.blocks i).payload = (img1.blocks i).payload) :
    content img2 l = content img1 l := by
  simp only [content]
  congr 1
  exact List.map_congr_left h

theorem content_concat (img : Image) (l : List Nat) (k : Nat) :
    content img (l ++ [k]) = content img l ++ (img.blocks k).payload := by
  simp [content]

theorem content_cons (img : Image) (a : Nat) (l : List Nat) :
    content img (a :: l) = (img.blocks a).payload ++ content img l := by
  simp [content]

theorem firstFree_mem (img : Image) (k : Nat) (h : firstFree img = some k) :
    k < img.numBlocks ∧ img.bitmap k = false := by
  constructor
  · have hm := List.mem_of_find?_eq_some h
    simpa [List.mem_range] using hm
  · have hp := List.find?_some h
    simpa using hp

theorem bool_not_lt_flip (i m : Nat) : (!decide (i < m)) = decide (m ≤ i) := by
  by_cases h : i < m
  · simp [h, Nat.not_le.mpr h]
  · simp [h, Nat.le_of_not_lt h]

theorem find?_range_aux (p : Nat → Bool) (m : Nat)
    (hp : ∀ i, p i = decide (m ≤ i)) :
    ∀ (n s : Nat), s ≤ m → m < s + n → (List.range' s n).find? p = some m := by
  intro n
  induction n with
  | zero => intro s h1 h2; omega
  | succ n ih =>
      intro s h1 h2
      rw [List.range'_succ, List.find?_cons]
      by_cases hs : s = m
      · subst hs
        rw [hp s]
        simp
      · have hlt : s < m := by omega
        rw [hp s]
        have : (decide (m ≤ s)) = false := by
          simp
          omega
        rw [this]
        simp only []
        exact ih (s + 1) (by omega) (by omega)

theorem firstFree_threshold (img : Image) (m : Nat)
    (hbm : ∀ i, img.bitmap i = decide (i < m)) (hm : m < img.numBlocks) :
    firstFree img = some m := by
  unfold firstFree
  rw [List.range_eq_range']
  refine find?_range_aux _ m ?_ img.numBlocks 0 (by omega) (by omega)
  intro i
  rw [hbm i]
  exact bool_not_lt_flip i m

theorem markUsed_threshold (img : Image) (m : Nat)
    (hbm : ∀ i, img.bitmap i = decide (i < m)) :
    ∀ i, (markUsed img m).bitmap i = decide (i < m + 1) := by
  intro i
  rw [markUsed_bitmap]
  by_cases hi : i = m
  · simp [hi]
  · rw [if_neg hi, hbm i]
    by_cases h2 : i < m
    · simp [h2, show i < m + 1 by omega]
    · simp [h2, show ¬ i < m + 1 by omega]

end fe

namespace fe

theorem mem_of_mem_dropLast (l : List Nat) (i : Nat) (h : i ∈ l.dropLast) :
    i ∈ l := by
  by_cases hne : l = []
  · subst hne
    simp at h
  · rw [← dropLast_append_getLastD l hne]
    exact List.mem_append_left _ h

theorem appendChunks_spec (P : Nat) :
    ∀ (cs : List (List Nat)) (img : Image) (chain : List Nat)
      (img2 : Image) (chain2 : List Nat),
      GoodChain P img chain →
      (∀ c ∈ cs.dropLast, c.length = P) →
      (∀ c ∈ cs, c.length ≤ P) →
      (cs ≠ [] → (img.blocks (chain.getLastD 0)).payload.length = P) →
      appendChunks img chain cs = some (img2, chain2) →
      GoodChain P img2 chain2 ∧
        content img2 chain2 = content img chain ++ cs.flatten ∧
        img2.numBlocks = img.numBlocks ∧
        ∃ ks, chain2 = chain ++ ks := by
  intro cs
  induction cs with
  | nil =>
      intro img chain img2 chain2 hg _ _ _ heq
      simp only [appendChunks, Option.some.injEq, Prod.mk.injEq] at heq
      obtain ⟨h1, h2⟩ := heq
      subst h1
      subst h2
      exact ⟨hg, by simp, rfl, [], by simp⟩
  | cons c cs ih =>
      intro img chain img2 chain2 hg hfull hle hstart heq
      rcases hff : firstFree img with _ | k
      · rw [appendChunks, hff] at heq
        simp at heq
      · simp only [appendChunks, hff] at heq
        set imgA := markUsed
          (setBlock
            (setBlock img (chain.getLastD 0)
              { next := k, payload := (img.blocks (chain.getLastD 0)).payload })
            k { next := k, payload := c }) k with hAdef
        have hk := firstFree_mem img k hff
        have hkchain : k ∉ chain := by
          intro hmem
          have hb := hg.mem_bitmap k hmem
          rw [hk.2] at hb
          exact Bool.false_ne_true hb
        have hlastmem : chain.getLastD 0 ∈ chain := getLastD_mem 0 chain hg.ne
        have hLk : chain.getLastD 0 ≠ k := by
          intro he
          rw [he] at hlastmem
          exact hkchain hlastmem
        have hblocksA : ∀ j, imgA.blocks j =
            if j = k then { next := k, payload := c }
            else if j = chain.getLastD 0 then
              { next := k, payload := (img.blocks (chain.getLastD 0)).payload }
            else img.blocks j := by
          intro j
          rw [hAdef]
          simp only [markUsed_blocks, setBlock_blocks]
        have hbitmapA : ∀ j, imgA.bitmap j =
            if j = k then true else img.bitmap j := by
          intro j
          rw [hAdef]
          simp only [markUsed_bitmap, setBlock_bitmap]
        have hnumA : imgA.numBlocks = img.numBlocks := by
          rw [hAdef]
          rfl
        have hgA : GoodChain P imgA (chain ++ [k]) := by
          refine ⟨by simp, ?_, ?_, ?_, ?_, ?_, ?_, ?_⟩
          · rw [List.nodup_append]
            refine ⟨hg.nodup, List.nodup_singleton k, ?_⟩
            intro a ha hb
            exact hkchain ((List.mem_singleton.mp hb) ▸ ha)
          · intro i hi
            rw [hnumA]
            rcases List.mem_append.mp hi with h | h
            · exact hg.mem_lt i h
            · rw [List.mem_singleton.mp h]
              exact hk.1
          · intro i hi
            rw [hbitmapA i]
            rcases List.mem_append.mp hi with h | h
            · by_cases hik : i = k
              · rw [if_pos hik]
              · rw [if_neg hik]
                exact hg.mem_bitmap i h
            · rw [if_pos (List.mem_singleton.mp h)]
          · refine linked_concat _ chain k ?_ ?_
            · refine linked_congr img _ chain ?_ hg.links
              intro i hi
              have hiL : i ≠ chain.getLastD 0 :=
                dropLast_ne_getLastD chain hg.nodup hg.ne i hi
              have hik : i ≠ k := by
                intro he
                exact hkchain (he ▸ mem_of_mem_dropLast chain i hi)
              rw [hblocksA i, if_neg hik, if_neg hiL]
            · intro _
              rw [hblocksA (chain.getLastD 0), if_neg hLk, if_pos rfl]
          · rw [List.dropLast_concat]
            intro i hi
            by_cases hiL : i = chain.getLastD 0
            · have hik : i ≠ k := by
                rw [hiL]
                exact hLk
              rw [hblocksA i, if_neg hik, if_pos hiL]
              exact hstart (by simp)
            · have hik : i ≠ k := by
                intro he
                exact hkchain (he ▸ hi)
              rw [hblocksA i, if_neg hik, if_neg hiL]
              exact hg.full i (mem_dropLast_of_ne_getLastD chain hg.ne i hi hiL)
          · rw [getLastD_concat, hblocksA k, if_pos rfl]
          · rw [getLastD_concat, hblocksA k, if_pos rfl]
            exact hle c (List.mem_cons_self c cs)
        have hfull2 : ∀ c2 ∈ cs.dropLast, c2.length = P := by
          intro c2 hc2
          refine hfull c2 ?_
          cases cs with
          | nil => simp at hc2
          | cons c3 cs3 =>
              rw [List.dropLast_cons₂]
              exact List.mem_cons_of_mem c hc2
        have hle2 : ∀ c2 ∈ cs, c2.length ≤ P := by
          intro c2 hc2
          exact hle c2 (List.mem_cons_of_mem c hc2)
        have hstart2 : cs ≠ [] →
            (imgA.blocks ((chain ++ [k]).getLastD 0)).payload.length = P := by
          intro hne
          rw [getLastD_concat, hblocksA k, if_pos rfl]
          refine hfull c ?_
          cases cs with
          | nil => exact absurd rfl hne
          | cons c3 cs3 =>
              rw [List.dropLast_cons₂]
              exact List.mem_cons_self _ _
        obtain ⟨hg2, hcontent, hnum, ks, hks⟩ :=
          ih imgA (chain ++ [k]) img2 chain2 hgA hfull2 hle2 hstart2 heq
        refine ⟨hg2, ?_, ?_, ?_⟩
        · rw [hcontent, content_concat]
          have hcc : content imgA chain = content img chain := by
            refine content_congr img imgA chain ?_
            intro i hi
            by_cases hiL : i = chain.getLastD 0
            · have hik : i ≠ k := by
                rw [hiL]
                exact hLk
              rw [hblocksA i, if_neg hik, if_pos hiL, hiL]
            · have hik : i ≠ k := by
                intro he
                exact hkchain (he ▸ hi)
              rw [hblocksA i, if_neg hik, if_neg hiL]
          have hpk : (imgA.blocks k).payload = c := by
            rw [hblocksA k, if_pos rfl]
          rw [hcc, hpk, List.flatten_cons, List.append_assoc]
        · rw [hnum, hnumA]
        · refine ⟨k :: ks, ?_⟩
          rw [hks, List.append_assoc]
          rfl

end fe

namespace fe

theorem appendBytes_spec (P : Nat) (img : Image) (e : Entry) (s : List Nat)
    (img2 : Image) (e2 : Entry) (hP : 0 < P)
    (hg : GoodChain P img e.chain)
    (heq : appendBytes P img e s = some (img2, e2)) :
    GoodChain P img2 e2.chain ∧
      content img2 e2.chain = content img e.chain ++ s ∧
      img2.numBlocks = img.numBlocks ∧
      (∃ ks, e2.chain = e.chain ++ ks) ∧
      e2.fileSize = e.fileSize + s.length := by
  obtain ⟨p, rfl⟩ : ∃ p, P = p + 1 := ⟨P - 1, by omega⟩
  simp only [appendBytes] at heq
  set L := e.chain.getLastD 0 with hLdef
  set room := p + 1 - (img.blocks L).payload.length with hroomdef
  set img1 := setBlock img L
    { next := (img.blocks L).next,
      payload := (img.blocks L).payload ++ s.take room } with h1def
  have hlen_le : (img.blocks L).payload.length ≤ p + 1 := hg.last_le
  have hblocks1 : ∀ j, img1.blocks j =
      if j = L then
        { next := (img.blocks L).next,
          payload := (img.blocks L).payload ++ s.take room }
      else img.blocks j := by
    intro j
    rw [h1def]
    simp only [setBlock_blocks]
  have hnext1 : ∀ j, (img1.blocks j).next = (img.blocks j).next := by
    intro j
    rw [hblocks1 j]
    by_cases hj : j = L
    · rw [if_pos hj, hj]
    · rw [if_neg hj]
  have hg1 : GoodChain (p + 1) img1 e.chain := by
    refine ⟨hg.ne, hg.nodup, ?_, ?_, ?_, ?_, ?_, ?_⟩
    · intro i hi
      rw [h1def]
      exact hg.mem_lt i hi
    · intro i hi
      rw [h1def]
      exact hg.mem_bitmap i hi
    · exact linked_congr img img1 e.chain (fun i _ => hnext1 i) hg.links
    · intro i hi
      have hiL : i ≠ L := dropLast_ne_getLastD e.chain hg.nodup hg.ne i hi
      rw [hblocks1 i, if_neg hiL]
      exact hg.full i hi
    · rw [hnext1 L]
      exact hg.last_self
    · rw [hblocks1 L, if_pos rfl]
      have hmin := List.length_take_le room s
      simp only [List.length_append]
      omega
  have hstart : chunks (p + 1) (s.drop room) ≠ [] →
      (img1.blocks L).payload.length = p + 1 := by
    intro hne
    have hd : s.drop room ≠ [] := by
      intro hnil
      exact hne (chunks_eq_nil_of_nil _ _ hnil)
    have hslen : room < s.length := by
      by_contra hcon
      exact hd (List.drop_eq_nil_of_le (by omega))
    rw [hblocks1 L, if_pos rfl]
    simp only [List.length_append, List.length_take]
    rw [Nat.min_eq_left (Nat.le_of_lt hslen)]
    omega
  rcases hac : appendChunks img1 e.chain (chunks (p + 1) (s.drop room))
    with _ | ⟨imgB, chainB⟩
  · rw [hac] at heq
    simp at heq
  · rw [hac] at heq
    simp only [Option.some.injEq, Prod.mk.injEq] at heq
    obtain ⟨h1, h2⟩ := heq
    subst h1
    subst h2
    obtain ⟨hg2, hcontent, hnum, ks, hks⟩ :=
      appendChunks_spec (p + 1) (chunks (p + 1) (s.drop room)) img1 e.chain
        imgB chainB hg1 (chunks_dropLast_length p (s.drop room))
        (chunks_length_le p (s.drop room)) hstart hac
    have hdecomp := dropLast_append_getLastD e.chain hg.ne
    have hc1 : content img1 e.chain = content img e.chain ++ s.take room := by
      conv_lhs => rw [← hdecomp]
      conv_rhs => rw [← hdecomp]
      rw [content_concat, content_concat]
      rw [hblocks1 L, if_pos rfl]
      have hdl : content img1 e.chain.dropLast =
          content img e.chain.dropLast := by
        refine content_congr img img1 _ ?_
        intro i hi
        have hiL : i ≠ L := dropLast_ne_getLastD e.chain hg.nodup hg.ne i hi
        rw [hblocks1 i, if_neg hiL]
      rw [hdl, List.append_assoc]
    refine ⟨hg2, ?_, ?_, ⟨ks, hks⟩, rfl⟩
    · rw [hcontent, chunks_flatten, hc1, List.append_assoc,
        List.take_append_drop]
    · rw [hnum, h1def]
      rfl

theorem createEntry_spec (P : Nat) (img img1 : Image) (e1 : Entry)
    (heq : createEntry img = some (img1, e1)) :
    GoodChain P img1 e1.chain ∧ content img1 e1.chain = [] ∧
      e1.fileSize = 0 ∧ img1.numBlocks = img.numBlocks := by
  rcases hff : firstFree img with _ | b
  · rw [createEntry, hff] at heq
    simp at heq
  · simp only [createEntry, hff, Option.some.injEq, Prod.mk.injEq] at heq
    obtain ⟨h1, h2⟩ := heq
    subst h1
    subst h2
    have hb := firstFree_mem img b hff
    refine ⟨⟨by simp, by simp, ?_, ?_, trivial, by simp, ?_, ?_⟩,
      by simp [content], rfl, rfl⟩
    · intro i hi
      rw [List.mem_singleton.mp hi]
      exact hb.1
    · intro i hi
      rw [List.mem_singleton.mp hi]
      simp
    · simp
    · simp

theorem applyWrites_good (P : Nat) :
    ∀ (ops : List (List Nat)) (img : Image) (e : Entry) (img2 : Image)
      (e2 : Entry), 0 < P → GoodChain P img e.chain →
      applyWrites P img e ops = some (img2, e2) →
      GoodChain P img2 e2.chain := by
  intro ops
  induction ops with
  | nil =>
      intro img e img2 e2 _ hg heq
      simp only [applyWrites, Option.some.injEq, Prod.mk.injEq] at heq
      obtain ⟨h1, h2⟩ := heq
      subst h1
      subst h2
      exact hg
  | cons s rest ih =>
      intro img e img2 e2 hP hg heq
      rcases hab : appendBytes P img e s with _ | ⟨imgB, eB⟩
      · rw [applyWrites, hab] at heq
        simp at heq
      · rw [applyWrites, hab] at heq
        exact ih imgB eB img2 e2 hP
          (appendBytes_spec P img e s imgB eB hP hg hab).1 heq

end fe

open fe in
/-- C4 (modelled from the spec: the `FileEntry` implementation file is not
among the sources): after creating a fresh entry and applying any sequence
of appending writes — each internally performing block writes, block
appends and `setNext` calls per spec section 4.5 — followed by a flush (a
host-level no-op at this granularity), the chain contains exactly one block
whose `next` field equals its own index, and it is the last block of the
chain: filtering the chain for self-looping blocks yields precisely the
singleton holding the last block. -/
theorem c4_exactly_one_terminator (P N : Nat) (ops : List (List Nat))
    (img : Image) (e : Entry) (hP : 0 < P)
    (heq : createAndApply P N ops = some (img, e)) :
    e.chain.filter (fun i => (img.blocks i).next == i) =
      [e.chain.getLastD 0] := by
  rcases hce : createEntry (freshImage N) with _ | ⟨img1, e1⟩
  · rw [createAndApply, hce] at heq
    simp at heq
  · rw [createAndApply, hce] at heq
    have hg1 := (createEntry_spec P (freshImage N) img1 e1 hce).1
    have hg2 := applyWrites_good P ops img1 e1 img e hP hg1 heq
    exact goodChain_filter P img e.chain hg2

open fe in
/-- Witness for C4: on a 3-block image with `P = 2`, the single write
`[1, 2, 3]` succeeds (producing a two-block chain) and the chain has
exactly its last block as self-loop terminator. -/
theorem c4_exactly_one_terminator_witness :
    0 < 2 ∧ (∃ img e, createAndApply 2 3 [[1, 2, 3]] = some (img, e) ∧
      e.chain.filter (fun i => (img.blocks i).next == i) =
        [e.chain.getLastD 0]) := by
  refine ⟨by decide, ?_⟩
  have hs : (createAndApply 2 3 [[1, 2, 3]]).isSome = true := by decide
  rcases h : createAndApply 2 3 [[1, 2, 3]] with _ | ⟨img, e⟩
  · rw [h] at hs
    simp at hs
  · exact ⟨img, e, rfl,
      c4_exactly_one_terminator 2 3 [[1, 2, 3]] img e (by decide) h⟩

namespace fe

theorem appendChunks_fresh :
    ∀ (cs : List (List Nat)) (img : Image) (chain : List Nat) (m : Nat),
      (∀ i, img.bitmap i = decide (i < m)) → 0 < m →
      m + cs.length ≤ img.numBlocks →
      ∃ img2 chain2, appendChunks img chain cs = some (img2, chain2) ∧
        (∀ i, img2.bitmap i = decide (i < m + cs.length)) ∧
        img2.numBlocks = img.numBlocks := by
  intro cs
  induction cs with
  | nil =>
      intro img chain m hbm hm hle
      exact ⟨img, chain, rfl, by simpa using hbm, rfl⟩
  | cons c cs ih =>
      intro img chain m hbm hm hle
      have hff : firstFree img = some m :=
        firstFree_threshold img m hbm (by simp at hle; omega)
      simp only [appendChunks, hff]
      have hbmA : ∀ i, (markUsed
          (setBlock
            (setBlock img (chain.getLastD 0)
              { next := m,
                payload := (img.blocks (chain.getLastD 0)).payload }) m
            { next := m, payload := c }) m).bitmap i = decide (i < m + 1) := by
        refine markUsed_threshold _ m ?_
        intro j
        simp only [setBlock_bitmap]
        exact hbm j
      obtain ⟨img2, chain2, heq, hbm2, hnum2⟩ :=
        ih (markUsed
          (setBlock
            (setBlock img (chain.getLastD 0)
              { next := m,
                payload := (img.blocks (chain.getLastD 0)).payload }) m
            { next := m, payload := c }) m)
          (chain ++ [m]) (m + 1) hbmA (by omega)
          (by
            show m + 1 + cs.length ≤ img.numBlocks
            simp at hle
            omega)
      refine ⟨img2, chain2, heq, ?_, by rw [hnum2]; rfl⟩
      intro i
      rw [hbm2 i,
        show m + 1 + cs.length = m + (c :: cs).length from by simp; omega]

theorem appendBytes_total (P : Nat) (img : Image) (e : Entry) (s : List Nat)
    (m : Nat) (hbm : ∀ i, img.bitmap i = decide (i < m)) (hm : 0 < m)
    (hcap : m + (chunks P (s.drop
        (P - (img.blocks (e.chain.getLastD 0)).payload.length))).length ≤
      img.numBlocks) :
    (appendBytes P img e s).isSome = true := by
  simp only [appendBytes]
  obtain ⟨i2, c2, hsome, -, -⟩ := appendChunks_fresh
    (chunks P (s.drop
      (P - (img.blocks (e.chain.getLastD 0)).payload.length)))
    (setBlock img (e.chain.getLastD 0)
      { next := (img.blocks (e.chain.getLastD 0)).next,
        payload := (img.blocks (e.chain.getLastD 0)).payload ++
          s.take (P - (img.blocks (e.chain.getLastD 0)).payload.length) })
    e.chain m
    (by
      intro i
      simp only [setBlock_bitmap]
      exact hbm i)
    hm
    (by
      simp only [setBlock_numBlocks]
      exact hcap)
  rw [hsome]
  rfl

end fe

open fe in
/-- C1 (modelled from the spec: the `FileEntry` implementation file is not
among the sources): for every byte string `s` and a fresh entry created on
a fresh image with `N ≥ ceil(|s| / P) + 2` blocks, the entry write of `s`
succeeds (its pure-append path), the flush is a no-op at this granularity,
and re-opening on the same start block — walking the chain, recovering
`fileSize` as the sum of the blocks' byte counts — and reading the whole
file yields exactly `s`. -/
theorem c1_write_flush_reopen_read_round_trip (P N : Nat) (s : List Nat)
    (hP : 0 < P) (hN : (s.length + P - 1) / P + 2 ≤ N) :
    ∃ (img1 img2 : Image) (e2 : Entry),
      createEntry (freshImage N) = some (img1, ⟨[0], 0⟩) ∧
      appendBytes P img1 ⟨[0], 0⟩ s = some (img2, e2) ∧
      e2.fileSize = s.length ∧
      e2.chain.headD 0 = (([0] : List Nat)).headD 0 ∧
      readAll img2 (e2.chain.headD 0) = some s := by
  obtain ⟨p, rfl⟩ : ∃ p, P = p + 1 := ⟨P - 1, by omega⟩
  have hN2 : 2 ≤ N := le_trans (Nat.le_add_left 2 _) hN
  have hff0 : firstFree (freshImage N) = some 0 := by
    refine firstFree_threshold (freshImage N) 0 ?_ ?_
    · intro i
      simp [freshImage]
    · show 0 < N
      omega
  set img1 := markUsed (setBlock (freshImage N) 0
    { next := 0, payload := [] }) 0 with h1def
  have hce : createEntry (freshImage N) = some (img1, ⟨[0], 0⟩) := by
    rw [createEntry, hff0]
  obtain ⟨hg1, hcontE, -, -⟩ :=
    createEntry_spec (p + 1) (freshImage N) img1 ⟨[0], 0⟩ hce
  have hbm1 : ∀ i, img1.bitmap i = decide (i < 1) := by
    intro i
    rw [h1def]
    refine markUsed_threshold _ 0 ?_ i
    intro j
    simp [freshImage]
  have hb0 : img1.blocks 0 = { next := 0, payload := [] } := by
    rw [h1def]
    simp
  have hroom0 : (p + 1) -
      (img1.blocks ((⟨[0], 0⟩ : Entry).chain.getLastD 0)).payload.length =
      p + 1 := by
    have hL : (⟨[0], 0⟩ : Entry).chain.getLastD 0 = 0 := rfl
    rw [hL, hb0]
    simp
  have hcount : 1 + (chunks (p + 1) (s.drop (p + 1))).length ≤ N := by
    rw [chunks_length_eq p (s.drop (p + 1)), List.length_drop]
    by_cases hsl : s.length ≤ p + 1
    · have h0 : s.length - (p + 1) = 0 := by omega
      rw [h0, Nat.div_eq_of_lt (by omega)]
      exact le_trans (by omega) hN2
    · have h1 : s.length - (p + 1) + p = s.length - 1 := by omega
      rw [h1]
      have h2 : s.length + (p + 1) - 1 = (s.length - 1) + (p + 1) := by
        omega
      rw [h2, Nat.add_div_right _ (by omega)] at hN
      generalize hq : (s.length - 1) / (p + 1) = q at hN ⊢
      omega
  have htot : (appendBytes (p + 1) img1 ⟨[0], 0⟩ s).isSome = true := by
    refine appendBytes_total (p + 1) img1 ⟨[0], 0⟩ s 1 hbm1 (by omega) ?_
    rw [hroom0]
    exact hcount
  rcases hB : appendBytes (p + 1) img1 ⟨[0], 0⟩ s with _ | ⟨img2, e2⟩
  · rw [hB] at htot
    simp at htot
  · obtain ⟨hg2, hcont2, hnum2, hchext, hfs⟩ :=
      appendBytes_spec (p + 1) img1 ⟨[0], 0⟩ s img2 e2 (by omega) hg1 hB
    have hN4 : img2.numBlocks = N := by
      rw [hnum2, h1def]
      rfl
    have hhead : e2.chain.headD 0 = 0 := by
      obtain ⟨ks, hks⟩ := hchext
      rw [hks]
      rfl
    have hlen2 : e2.chain.length ≤ N := by
      refine chain_length_le N e2.chain hg2.nodup ?_
      intro i hi
      have := hg2.mem_lt i hi
      rw [hN4] at this
      exact this
    have hwalk := walkChain_eq img2 e2.chain img2.numBlocks (p + 1) hg2
      (by rw [hN4]; exact hlen2)
    have hread : readAll img2 (e2.chain.headD 0) = some s := by
      rw [readAll, hwalk]
      show some (content img2 e2.chain) = some s
      rw [hcont2, hcontE]
      rfl
    refine ⟨img1, img2, e2, hce, hB, ?_, ?_, hread⟩
    · rw [hfs]
      simp
    · rw [hhead]
      rfl

open fe in
/-- Witness for C1: the three bytes `[1, 2, 3]` on a 4-block fresh image
with `P = 2` round-trip through write, flush and re-opened read. -/
theorem c1_write_flush_reopen_read_round_trip_witness :
    0 < 2 ∧ (([1, 2, 3] : List Nat).length + 2 - 1) / 2 + 2 ≤ 4 ∧
      (∃ (img1 img2 : Image) (e2 : Entry),
        createEntry (freshImage 4) = some (img1, ⟨[0], 0⟩) ∧
        appendBytes 2 img1 ⟨[0], 0⟩ [1, 2, 3] = some (img2, e2) ∧
        e2.fileSize = ([1, 2, 3] : List Nat).length ∧
        e2.chain.headD 0 = (([0] : List Nat)).headD 0 ∧
        readAll img2 (e2.chain.headD 0) = some [1, 2, 3]) :=
  ⟨by decide, by decide,
    c1_write_flush_reopen_read_round_trip 2 4 [1, 2, 3] (by decide)
      (by decide)⟩
